import Mathlib

/-!
Verification of the `CircularQueue` single-producer/single-consumer ring
buffer (`circularqueue.h`).

The C++ class is embedded shallowly:

* `size_t` values are natural numbers; the only places where 64-bit
  wraparound can actually occur (the `capacity - 1` mask computation and
  the `write - read` difference in `size()`) are modelled explicitly with
  `sizeTSub`, subtraction modulo `2 ^ 64`.
* the `std::vector<T>` backing store is a `List T`; a store to
  `m_buffer[i]` is `List.set`, a load is `List.getD`.
* the constructor's doubling loop `while (powerOf2 < capacity) powerOf2 <<= 1;`
  is `nextPow2Loop`, written with a fuel argument so that it is structurally
  recursive and computable by the kernel; fuel `cap` dominates the real
  iteration count (the loop runs at most `log2 cap + 1` times).  The plain
  natural-number doubling agrees with the C++ `size_t` doubling for every
  request `cap ≤ 2 ^ 63`, where `powerOf2 <<= 1` cannot overflow; theorems
  about the constructor therefore carry that bound.
* the atomic loads/stores are sequential reads/writes: all claims treated
  here quantify over single-threaded call sequences.
-/

/-- Subtraction of `size_t` values: `a - b` computed modulo `2 ^ 64`,
for operands below `2 ^ 64`. -/
def sizeTSub (a b : Nat) : Nat := (2 ^ 64 + a - b) % 2 ^ 64

/-- The constructor's doubling loop: starting from `p`, double until the
value is at least `cap`.  The `fuel` argument makes the recursion
structural; `nextPow2` supplies fuel `cap`, which is enough because
`cap ≤ 2 ^ cap` (see `nextPow2Loop_ge`). -/
def nextPow2Loop (cap : Nat) : Nat → Nat → Nat
  | 0, p => p
  | fuel + 1, p => if p < cap then nextPow2Loop cap fuel (p <<< 1) else p

/-- The value the constructor's `powerOf2` variable holds when the
doubling loop exits, starting from 1. -/
def nextPow2 (cap : Nat) : Nat := nextPow2Loop cap cap 1

/-- Model of `std::vector<T>::resize n` on a vector of default-initialized
elements: keep the first `n` elements, pad with default-initialized
elements up to length `n`. -/
def listResize {T : Type} [Inhabited T] (l : List T) (n : Nat) : List T :=
  l.take n ++ List.replicate (n - l.length) default

/-- The state of a `CircularQueue<T>`: the five data members of the C++
class.  The atomics `m_writeIndex`/`m_readIndex` are plain naturals here,
read and written sequentially. -/
structure CircularQueue (T : Type) where
  m_capacity : Nat
  m_mask : Nat
  m_buffer : List T
  m_writeIndex : Nat
  m_readIndex : Nat
deriving DecidableEq

namespace CircularQueue

/-- The constructor `CircularQueue(size_t capacity)`: member-initializes
`m_capacity = capacity`, `m_mask = capacity - 1` (a `size_t` subtraction,
which underflows to `2 ^ 64 - 1` when `capacity = 0`), `m_buffer(capacity)`,
both cursors 0; then, if `capacity & (capacity - 1) != 0`, rounds the
capacity up by the doubling loop and resizes the store. -/
def construct (T : Type) [Inhabited T] (capacity : Nat) : CircularQueue T :=
  let q0 : CircularQueue T :=
    { m_capacity := capacity
      m_mask := sizeTSub capacity 1
      m_buffer := List.replicate capacity default
      m_writeIndex := 0
      m_readIndex := 0 }
  if capacity &&& sizeTSub capacity 1 ≠ 0 then
    let powerOf2 := nextPow2 capacity
    { q0 with
        m_capacity := powerOf2
        m_mask := sizeTSub powerOf2 1
        m_buffer := listResize q0.m_buffer powerOf2 }
  else
    q0

variable {T : Type}

/-- `bool enqueue(const T& item)`: compute the candidate next write
position; if it equals the read cursor the queue is full and nothing
happens; otherwise store `item` at the current write position and publish
the advanced write cursor.  Returns the success flag and the new state. -/
def enqueue (q : CircularQueue T) (item : T) : Bool × CircularQueue T :=
  let currentWrite := q.m_writeIndex
  let nextWrite := (currentWrite + 1) &&& q.m_mask
  if nextWrite = q.m_readIndex then
    (false, q)
  else
    (true, { q with
               m_buffer := q.m_buffer.set currentWrite item
               m_writeIndex := nextWrite })

/-- `void forceEnqueue(const T& item)`: like `enqueue`, but when the queue
is full the read cursor is advanced first, discarding the oldest element;
the write then always happens. -/
def forceEnqueue (q : CircularQueue T) (item : T) : CircularQueue T :=
  let currentWrite := q.m_writeIndex
  let nextWrite := (currentWrite + 1) &&& q.m_mask
  let q1 :=
    if nextWrite = q.m_readIndex then
      { q with m_readIndex := (q.m_readIndex + 1) &&& q.m_mask }
    else
      q
  { q1 with
      m_buffer := q1.m_buffer.set currentWrite item
      m_writeIndex := nextWrite }

/-- `bool dequeue(T& item)`: if the read cursor equals the write cursor
the queue is empty, the output parameter `item` is left untouched and
`false` is returned; otherwise the slot at the read position is copied
into `item` and the advanced read cursor is published.  The result is
`(success, item-after-the-call, new-state)`. -/
def dequeue (q : CircularQueue T) (item : T) : Bool × T × CircularQueue T :=
  let currentRead := q.m_readIndex
  if currentRead = q.m_writeIndex then
    (false, item, q)
  else
    (true, q.m_buffer.getD currentRead item,
     { q with m_readIndex := (currentRead + 1) &&& q.m_mask })

/-- `bool isEmpty() const`. -/
def isEmpty (q : CircularQueue T) : Bool :=
  q.m_readIndex == q.m_writeIndex

/-- `bool isFull() const`. -/
def isFull (q : CircularQueue T) : Bool :=
  ((q.m_writeIndex + 1) &&& q.m_mask) == q.m_readIndex

/-- `size_t size() const`: `(write - read) & mask`, the subtraction being
`size_t` (modulo `2 ^ 64`) subtraction. -/
def size (q : CircularQueue T) : Nat :=
  sizeTSub q.m_writeIndex q.m_readIndex &&& q.m_mask

/-- `size_t capacity() const`. -/
def capacity (q : CircularQueue T) : Nat := q.m_capacity

/-- `void clear()`: set the read cursor to the current write cursor. -/
def clear (q : CircularQueue T) : CircularQueue T :=
  { q with m_readIndex := q.m_writeIndex }

/-- `double getUsageRatio() const`, modelled over `ℚ`:
`size() / capacity()`.  For every reachable state with capacity at most
`2 ^ 53` both operands convert to `double` exactly and the division by a
power of two is exact, so the rational value coincides with the IEEE-754
result; theorems about this function carry that bound. -/
def getUsageRatioVal (q : CircularQueue T) : ℚ :=
  (q.size : ℚ) / (q.m_capacity : ℚ)

/-- The abstract FIFO content of the queue: the `size` pending elements,
oldest first, read from the ring at positions `read, read+1, ...`
wrapped by the mask. -/
def contents [Inhabited T] (q : CircularQueue T) : List T :=
  (List.range q.size).map fun i => q.m_buffer.getD ((q.m_readIndex + i) &&& q.m_mask) default

/-- Run `enqueue` once per element of `vs`, left to right, and report
whether every call succeeded, together with the final state. -/
def enqueueAll (q : CircularQueue T) (vs : List T) : Bool × CircularQueue T :=
  match vs with
  | [] => (true, q)
  | v :: rest =>
    let r := q.enqueue v
    let after := enqueueAll r.2 rest
    (r.1 && after.1, after.2)

/-- Run `dequeue` `n` times, each call receiving a default-initialized
output variable, collecting the `(success, output)` pairs in call order
together with the final state. -/
def dequeueN [Inhabited T] : Nat → CircularQueue T → List (Bool × T) × CircularQueue T
  | 0, q => ([], q)
  | n + 1, q =>
    let r := q.dequeue default
    let rest := dequeueN n r.2.2
    ((r.1, r.2.1) :: rest.1, rest.2)

/-- The structural invariant maintained by every queue built by the
constructor from a request in `[1, 2^63]` and evolved by the public
operations: the capacity is a positive divisor of `2 ^ 64` (hence a power
of two), the mask is `capacity - 1`, the store has exactly `capacity`
slots, and both cursors are in `[0, capacity)`. -/
structure Inv (q : CircularQueue T) : Prop where
  cap_pos : 0 < q.m_capacity
  cap_dvd : q.m_capacity ∣ 2 ^ 64
  mask_eq : q.m_mask = q.m_capacity - 1
  len_eq : q.m_buffer.length = q.m_capacity
  write_lt : q.m_writeIndex < q.m_capacity
  read_lt : q.m_readIndex < q.m_capacity

/-- States reachable from a constructed queue (request in `[1, 2^63]`,
the range on which the embedding of the constructor is exact) by any
sequence of `enqueue`, `forceEnqueue`, `dequeue` and `clear` calls. -/
inductive Reachable [Inhabited T] : CircularQueue T → Prop
  | construct (cap : Nat) (h1 : 1 ≤ cap) (h2 : cap ≤ 2 ^ 63) :
      Reachable (CircularQueue.construct T cap)
  | enqueue (q : CircularQueue T) (x : T) :
      Reachable q → Reachable (q.enqueue x).2
  | forceEnqueue (q : CircularQueue T) (x : T) :
      Reachable q → Reachable (q.forceEnqueue x)
  | dequeue (q : CircularQueue T) (out : T) :
      Reachable q → Reachable (q.dequeue out).2.2
  | clear (q : CircularQueue T) :
      Reachable q → Reachable q.clear

end CircularQueue

/-! ### Bit-level facts about the power-of-two test and the mask -/

theorem land_two_mul_succ (m : Nat) : (2 * m + 1) &&& (2 * m) = 2 * m := by
  apply Nat.eq_of_testBit_eq
  intro i
  cases i with
  | zero => simp [Nat.testBit_land, Nat.testBit_zero]
  | succ j =>
    have h1 : (2 * m + 1) / 2 = m := by omega
    have h2 : (2 * m) / 2 = m := by omega
    simp only [Nat.testBit_land]
    simp only [Nat.testBit_succ]
    rw [h1, h2, Bool.and_self]

theorem land_two_mul_pred (m : Nat) (hm : 0 < m) :
    (2 * m) &&& (2 * m - 1) = 2 * (m &&& (m - 1)) := by
  apply Nat.eq_of_testBit_eq
  intro i
  cases i with
  | zero => simp [Nat.testBit_land, Nat.testBit_zero]
  | succ j =>
    have h1 : (2 * m) / 2 = m := by omega
    have h2 : (2 * m - 1) / 2 = m - 1 := by omega
    have h3 : (2 * (m &&& (m - 1))) / 2 = m &&& (m - 1) := by omega
    simp only [Nat.testBit_land]
    simp only [Nat.testBit_succ]
    rw [h1, h2, h3, Nat.testBit_land]

/-- A positive number passing the constructor's test `c & (c - 1) == 0`
is a power of two. -/
theorem pow2_of_land_pred_eq_zero : ∀ c : Nat, 0 < c → c &&& (c - 1) = 0 → ∃ k, c = 2 ^ k := by
  intro c
  induction c using Nat.strong_induction_on with
  | _ c ih =>
    intro hc h
    rcases Nat.even_or_odd c with he | ho
    · obtain ⟨m, hm⟩ := he
      have hm2 : c = 2 * m := by omega
      have hmpos : 0 < m := by omega
      subst hm2
      rw [land_two_mul_pred m hmpos] at h
      have h0 : m &&& (m - 1) = 0 := by omega
      obtain ⟨k, hk⟩ := ih m (by omega) hmpos h0
      exact ⟨k + 1, by rw [hk]; ring⟩
    · obtain ⟨m, hm⟩ := ho
      subst hm
      by_cases hm0 : m = 0
      · exact ⟨0, by omega⟩
      · exfalso
        have he : (2 * m + 1) - 1 = 2 * m := by omega
        rw [he, land_two_mul_succ] at h
        omega

/-- A power of two passes the constructor's test `c & (c - 1) == 0`. -/
theorem land_pred_eq_zero_of_pow2 (k : Nat) : (2 ^ k) &&& (2 ^ k - 1) = 0 := by
  apply Nat.eq_of_testBit_eq
  intro i
  simp only [Nat.testBit_land, Nat.testBit_two_pow, Nat.testBit_two_pow_sub_one, Nat.zero_testBit]
  by_cases h : k = i
  · subst h; simp
  · simp [h]

/-- Masking with `2 ^ n - 1` is reduction modulo `2 ^ n`. -/
theorem land_two_pow_sub_one (x n : Nat) : x &&& (2 ^ n - 1) = x % 2 ^ n := by
  apply Nat.eq_of_testBit_eq
  intro i
  simp [Nat.testBit_land, Nat.testBit_two_pow_sub_one, Nat.testBit_mod_two_pow, Bool.and_comm]

/-- Reduction modulo `cap` of a value below `2 * cap`, as the single
conditional subtraction the cursor arithmetic amounts to. -/
theorem mod_double_lt (cap x : Nat) (_hc : 0 < cap) (h : x < 2 * cap) :
    x % cap = if cap ≤ x then x - cap else x := by
  split
  · rw [Nat.mod_eq_sub_mod (by omega)]
    exact Nat.mod_eq_of_lt (by omega)
  · exact Nat.mod_eq_of_lt (by omega)

/-! ### The constructor's doubling loop -/

theorem nextPow2Loop_ge (cap : Nat) :
    ∀ fuel p : Nat, 0 < p → cap ≤ p * 2 ^ fuel → cap ≤ nextPow2Loop cap fuel p := by
  intro fuel
  induction fuel with
  | zero =>
    intro p hp h
    rw [nextPow2Loop]
    simpa using h
  | succ f ih =>
    intro p hp h
    rw [nextPow2Loop]
    split
    · apply ih (p <<< 1) (by simp [Nat.shiftLeft_eq]; omega)
      have hs : p <<< 1 = 2 * p := by simp [Nat.shiftLeft_eq]; ring
      rw [hs]
      calc cap ≤ p * 2 ^ (f + 1) := h
        _ = 2 * p * 2 ^ f := by ring
    · omega

theorem nextPow2Loop_pow2 (cap : Nat) :
    ∀ fuel p : Nat, (∃ k, p = 2 ^ k) → ∃ k, nextPow2Loop cap fuel p = 2 ^ k := by
  intro fuel
  induction fuel with
  | zero =>
    intro p hpow
    rw [nextPow2Loop]
    exact hpow
  | succ f ih =>
    intro p hpow
    rw [nextPow2Loop]
    split
    · apply ih
      obtain ⟨k, hk⟩ := hpow
      exact ⟨k + 1, by simp [Nat.shiftLeft_eq, hk]; ring⟩
    · exact hpow

theorem nextPow2Loop_le (cap : Nat) :
    ∀ fuel p : Nat, (∃ k, p = 2 ^ k) →
      ∀ q, p ≤ q → (∃ j, q = 2 ^ j) → cap ≤ q → nextPow2Loop cap fuel p ≤ q := by
  intro fuel
  induction fuel with
  | zero =>
    intro p _ q hpq _ _
    rw [nextPow2Loop]
    exact hpq
  | succ f ih =>
    intro p hpow q hpq hqpow hcapq
    rw [nextPow2Loop]
    split
    · apply ih _ ?hpow q ?hle hqpow hcapq
      case hpow =>
        obtain ⟨k, hk⟩ := hpow
        exact ⟨k + 1, by simp [Nat.shiftLeft_eq, hk]; ring⟩
      case hle =>
        obtain ⟨k, hk⟩ := hpow
        obtain ⟨j, hj⟩ := hqpow
        have hne : p ≠ q := by omega
        have hkj : k < j := by
          by_contra hc
          push_neg at hc
          have : 2 ^ j ≤ 2 ^ k := Nat.pow_le_pow_right (by norm_num) hc
          omega
        have h2 : 2 ^ (k + 1) ≤ 2 ^ j := Nat.pow_le_pow_right (by norm_num) hkj
        have hs : p <<< 1 = 2 ^ (k + 1) := by simp [Nat.shiftLeft_eq, hk]; ring
        omega
    · exact hpq

/-- Exiting the doubling loop started at 1 with fuel `cap` yields the
least power of two that is at least `cap`. -/
theorem nextPow2_spec (cap : Nat) :
    cap ≤ nextPow2 cap ∧ (∃ k, nextPow2 cap = 2 ^ k) ∧
      ∀ q, (∃ j, q = 2 ^ j) → cap ≤ q → nextPow2 cap ≤ q := by
  refine ⟨?_, ?_, ?_⟩
  · exact nextPow2Loop_ge cap cap 1 (by omega) (by simpa using (Nat.lt_two_pow cap).le)
  · exact nextPow2Loop_pow2 cap cap 1 ⟨0, rfl⟩
  · intro q hqpow hcapq
    apply nextPow2Loop_le cap cap 1 ⟨0, rfl⟩ q ?_ hqpow hcapq
    obtain ⟨j, hj⟩ := hqpow
    have := Nat.one_le_two_pow (n := j)
    omega

/-! ### Consequences of the structural invariant -/

namespace CircularQueue

variable {T : Type} {q : CircularQueue T}

theorem Inv.cap_pow2 (hI : q.Inv) : ∃ k, k ≤ 64 ∧ q.m_capacity = 2 ^ k := by
  obtain ⟨k, hk, hc⟩ := (Nat.dvd_prime_pow Nat.prime_two).1 hI.cap_dvd
  exact ⟨k, hk, hc⟩

theorem Inv.land_mask (hI : q.Inv) (x : Nat) : x &&& q.m_mask = x % q.m_capacity := by
  obtain ⟨k, _, hc⟩ := hI.cap_pow2
  rw [hI.mask_eq, hc, land_two_pow_sub_one]

theorem Inv.size_eq (hI : q.Inv) :
    q.size = (q.m_capacity + q.m_writeIndex - q.m_readIndex) % q.m_capacity := by
  obtain ⟨t, ht⟩ := hI.cap_dvd
  have hcap64 : q.m_capacity ≤ 2 ^ 64 := Nat.le_of_dvd (by norm_num) hI.cap_dvd
  have hr := hI.read_lt
  have ht1 : 1 ≤ t := by
    rcases Nat.eq_zero_or_pos t with h0 | h1
    · rw [h0, Nat.mul_zero] at ht
      norm_num at ht
    · exact h1
  unfold CircularQueue.size sizeTSub
  rw [hI.land_mask, Nat.mod_mod_of_dvd _ hI.cap_dvd]
  have h2 : q.m_capacity * (t - 1) + q.m_capacity = q.m_capacity * t := by
    cases t with
    | zero => omega
    | succ u =>
      have : u + 1 - 1 = u := by omega
      rw [this]
      ring
  have key : 2 ^ 64 + q.m_writeIndex - q.m_readIndex
      = q.m_capacity * (t - 1) + (q.m_capacity + q.m_writeIndex - q.m_readIndex) := by
    have hcl : q.m_capacity ≤ 2 ^ 64 := hcap64
    omega
  rw [key, Nat.mul_add_mod]

theorem Inv.size_cases (hI : q.Inv) :
    (q.m_readIndex ≤ q.m_writeIndex ∧ q.size = q.m_writeIndex - q.m_readIndex) ∨
    (q.m_writeIndex < q.m_readIndex ∧
      q.size = q.m_capacity + q.m_writeIndex - q.m_readIndex) := by
  have hw := hI.write_lt
  have hr := hI.read_lt
  have hc := hI.cap_pos
  rw [hI.size_eq, mod_double_lt _ _ hc (by omega)]
  split_ifs <;> omega

theorem Inv.size_lt (hI : q.Inv) : q.size < q.m_capacity := by
  have hw := hI.write_lt
  have hr := hI.read_lt
  rcases hI.size_cases with ⟨h1, h2⟩ | ⟨h1, h2⟩ <;> omega

theorem Inv.size_zero_iff (hI : q.Inv) : q.size = 0 ↔ q.m_readIndex = q.m_writeIndex := by
  have hw := hI.write_lt
  have hr := hI.read_lt
  rcases hI.size_cases with ⟨h1, h2⟩ | ⟨h1, h2⟩ <;> omega

theorem Inv.full_iff (hI : q.Inv) :
    ((q.m_writeIndex + 1) &&& q.m_mask = q.m_readIndex) ↔ q.size = q.m_capacity - 1 := by
  have hw := hI.write_lt
  have hr := hI.read_lt
  have hc := hI.cap_pos
  rw [hI.land_mask, mod_double_lt _ _ hc (by omega)]
  rcases hI.size_cases with ⟨h1, h2⟩ | ⟨h1, h2⟩ <;> rw [h2] <;> split_ifs <;> omega

theorem Inv.write_read_size (hI : q.Inv) :
    (q.m_readIndex + q.size) % q.m_capacity = q.m_writeIndex := by
  have hw := hI.write_lt
  have hr := hI.read_lt
  have hc := hI.cap_pos
  rcases hI.size_cases with ⟨h1, h2⟩ | ⟨h1, h2⟩ <;>
    rw [h2, mod_double_lt _ _ hc (by omega)] <;> split_ifs <;> omega

theorem Inv.pos_inj (hI : q.Inv) {i j : Nat} (hi : i < q.m_capacity) (hj : j < q.m_capacity)
    (h : (q.m_readIndex + i) % q.m_capacity = (q.m_readIndex + j) % q.m_capacity) : i = j := by
  have hr := hI.read_lt
  have hc := hI.cap_pos
  rw [mod_double_lt _ _ hc (by omega), mod_double_lt _ _ hc (by omega)] at h
  split_ifs at h <;> omega

theorem contents_length [Inhabited T] (q : CircularQueue T) : q.contents.length = q.size := by
  simp [contents]

end CircularQueue

/-! ### The constructor -/

theorem sizeTSub_one (cap : Nat) (h1 : 1 ≤ cap) (h2 : cap ≤ 2 ^ 64) :
    sizeTSub cap 1 = cap - 1 := by
  unfold sizeTSub
  have he : 2 ^ 64 + cap - 1 = 2 ^ 64 + (cap - 1) := by omega
  rw [he, Nat.add_mod_left]
  exact Nat.mod_eq_of_lt (by omega)

namespace CircularQueue

variable {T : Type}

theorem construct_spec (T : Type) [Inhabited T] (cap : Nat) (h1 : 1 ≤ cap)
    (h2 : cap ≤ 2 ^ 63) :
    ((∃ k, cap = 2 ^ k) → (construct T cap).m_capacity = cap) ∧
    (¬(∃ k, cap = 2 ^ k) → (construct T cap).m_capacity = nextPow2 cap) ∧
    (∃ k, (construct T cap).m_capacity = 2 ^ k) ∧
    cap ≤ (construct T cap).m_capacity ∧
    (construct T cap).m_capacity ≤ 2 ^ 63 ∧
    (construct T cap).m_mask = (construct T cap).m_capacity - 1 ∧
    (construct T cap).m_buffer.length = (construct T cap).m_capacity ∧
    (construct T cap).m_writeIndex = 0 ∧ (construct T cap).m_readIndex = 0 := by
  have hsub : sizeTSub cap 1 = cap - 1 := sizeTSub_one cap h1 (by omega)
  by_cases hpow : ∃ k, cap = 2 ^ k
  · have hcond : ¬(cap &&& sizeTSub cap 1 ≠ 0) := by
      rw [hsub]
      obtain ⟨k, hk⟩ := hpow
      subst hk
      simp [land_pred_eq_zero_of_pow2]
    simp only [construct, if_neg hcond]
    refine ⟨fun _ => trivial, fun hc => absurd hpow hc, hpow, le_refl cap, h2, hsub, ?_, trivial, trivial⟩
    simp
  · have hland : cap &&& (cap - 1) ≠ 0 := by
      intro h0
      exact hpow (pow2_of_land_pred_eq_zero cap (by omega) h0)
    have hcond : cap &&& sizeTSub cap 1 ≠ 0 := by rw [hsub]; exact hland
    obtain ⟨hge, hp2, hmin⟩ := nextPow2_spec cap
    have hle63 : nextPow2 cap ≤ 2 ^ 63 := hmin (2 ^ 63) ⟨63, rfl⟩ h2
    have hnp1 : 1 ≤ nextPow2 cap := by omega
    have hsub2 : sizeTSub (nextPow2 cap) 1 = nextPow2 cap - 1 :=
      sizeTSub_one _ hnp1 (by omega)
    simp only [construct, if_pos hcond]
    refine ⟨fun hc => absurd hc hpow, fun _ => trivial, hp2, hge, hle63, hsub2, ?_, trivial, trivial⟩
    simp only [listResize, List.length_append, List.length_take, List.length_replicate]
    omega

theorem construct_Inv (T : Type) [Inhabited T] (cap : Nat) (h1 : 1 ≤ cap)
    (h2 : cap ≤ 2 ^ 63) : (construct T cap).Inv := by
  obtain ⟨_, _, ⟨k, hk⟩, hge, hle, hmask, hlen, hw, hr⟩ := construct_spec T cap h1 h2
  have hcpos : 0 < (construct T cap).m_capacity := by omega
  have hk63 : k ≤ 63 := by
    apply (Nat.pow_le_pow_iff_right (by norm_num : (1:Nat) < 2)).1
    omega
  exact ⟨hcpos, by rw [hk]; exact pow_dvd_pow 2 (by omega), hmask, hlen,
    by omega, by omega⟩

theorem size_eq_zero_of_read_eq_write (q : CircularQueue T)
    (h : q.m_readIndex = q.m_writeIndex) : q.size = 0 := by
  unfold size sizeTSub
  rw [h]
  have he : 2 ^ 64 + q.m_writeIndex - q.m_writeIndex = 2 ^ 64 := by omega
  rw [he]
  simp [Nat.zero_and]

theorem contents_nil_of_read_eq_write [Inhabited T] (q : CircularQueue T)
    (h : q.m_readIndex = q.m_writeIndex) : q.contents = [] := by
  unfold contents
  rw [size_eq_zero_of_read_eq_write q h]
  simp

end CircularQueue

/-! ### Behaviour of the operations on invariant states -/

namespace CircularQueue

variable {T : Type} {q : CircularQueue T}

theorem enqueue_eq_of_full (q : CircularQueue T) (x : T)
    (h : (q.m_writeIndex + 1) &&& q.m_mask = q.m_readIndex) : q.enqueue x = (false, q) := by
  simp [enqueue, h]

theorem enqueue_eq_of_not_full (q : CircularQueue T) (x : T)
    (h : (q.m_writeIndex + 1) &&& q.m_mask ≠ q.m_readIndex) :
    q.enqueue x = (true, { q with
      m_buffer := q.m_buffer.set q.m_writeIndex x
      m_writeIndex := (q.m_writeIndex + 1) &&& q.m_mask }) := by
  simp [enqueue, h]

theorem dequeue_eq_of_empty (q : CircularQueue T) (out : T)
    (h : q.m_readIndex = q.m_writeIndex) : q.dequeue out = (false, out, q) := by
  simp [dequeue, h]

theorem dequeue_eq_of_nonempty (q : CircularQueue T) (out : T)
    (h : q.m_readIndex ≠ q.m_writeIndex) :
    q.dequeue out = (true, q.m_buffer.getD q.m_readIndex out,
      { q with m_readIndex := (q.m_readIndex + 1) &&& q.m_mask }) := by
  simp [dequeue, h]

theorem contents_getElem [Inhabited T] (q : CircularQueue T) (i : Nat)
    (hi : i < q.contents.length) :
    q.contents[i] = q.m_buffer.getD ((q.m_readIndex + i) &&& q.m_mask) default := by
  simp [contents]

theorem Inv.not_full_of_size (hI : q.Inv) (hsz : q.size < q.m_capacity - 1) :
    (q.m_writeIndex + 1) &&& q.m_mask ≠ q.m_readIndex := by
  intro h
  rw [hI.full_iff] at h
  omega

theorem Inv.enqueue_inv (hI : q.Inv) (x : T) : (q.enqueue x).2.Inv := by
  by_cases h : (q.m_writeIndex + 1) &&& q.m_mask = q.m_readIndex
  · rw [enqueue_eq_of_full q x h]
    exact hI
  · rw [enqueue_eq_of_not_full q x h]
    refine ⟨hI.cap_pos, hI.cap_dvd, hI.mask_eq, ?_, ?_, hI.read_lt⟩
    · simpa [List.length_set] using hI.len_eq
    · show (q.m_writeIndex + 1) &&& q.m_mask < q.m_capacity
      rw [hI.land_mask]
      exact Nat.mod_lt _ hI.cap_pos

theorem Inv.forceEnqueue_inv (hI : q.Inv) (x : T) : (q.forceEnqueue x).Inv := by
  unfold forceEnqueue
  by_cases h : (q.m_writeIndex + 1) &&& q.m_mask = q.m_readIndex
  · simp only [h, if_pos]
    refine ⟨hI.cap_pos, hI.cap_dvd, hI.mask_eq, ?_, ?_, ?_⟩
    · simpa [List.length_set] using hI.len_eq
    · exact hI.read_lt
    · show (q.m_readIndex + 1) &&& q.m_mask < q.m_capacity
      rw [hI.land_mask]
      exact Nat.mod_lt _ hI.cap_pos
  · simp only [h, if_neg, ite_false]
    refine ⟨hI.cap_pos, hI.cap_dvd, hI.mask_eq, ?_, ?_, ?_⟩
    · simpa [List.length_set] using hI.len_eq
    · show (q.m_writeIndex + 1) &&& q.m_mask < q.m_capacity
      rw [hI.land_mask]
      exact Nat.mod_lt _ hI.cap_pos
    · exact hI.read_lt

theorem Inv.dequeue_inv (hI : q.Inv) (out : T) : (q.dequeue out).2.2.Inv := by
  by_cases h : q.m_readIndex = q.m_writeIndex
  · rw [dequeue_eq_of_empty q out h]
    exact hI
  · rw [dequeue_eq_of_nonempty q out h]
    refine ⟨hI.cap_pos, hI.cap_dvd, hI.mask_eq, hI.len_eq, hI.write_lt, ?_⟩
    show (q.m_readIndex + 1) &&& q.m_mask < q.m_capacity
    rw [hI.land_mask]
    exact Nat.mod_lt _ hI.cap_pos

theorem Inv.clear_inv (hI : q.Inv) : q.clear.Inv :=
  ⟨hI.cap_pos, hI.cap_dvd, hI.mask_eq, hI.len_eq, hI.write_lt, hI.write_lt⟩

end CircularQueue

namespace CircularQueue

variable {T : Type} {q : CircularQueue T}

/-- A successful `enqueue` (possible whenever fewer than `capacity - 1`
elements are pending) returns true and appends the item to the abstract
FIFO content. -/
theorem Inv.enqueue_spec [Inhabited T] (hI : q.Inv) (x : T)
    (hsz : q.size < q.m_capacity - 1) :
    (q.enqueue x).1 = true ∧ (q.enqueue x).2.Inv ∧
    (q.enqueue x).2.m_capacity = q.m_capacity ∧
    (q.enqueue x).2.size = q.size + 1 ∧
    (q.enqueue x).2.contents = q.contents ++ [x] := by
  have hc := hI.cap_pos
  have hw := hI.write_lt
  have hr := hI.read_lt
  have hnf := hI.not_full_of_size hsz
  have hIq' : (q.enqueue x).2.Inv := hI.enqueue_inv x
  have hq' : (q.enqueue x).2 = { q with
      m_buffer := q.m_buffer.set q.m_writeIndex x
      m_writeIndex := (q.m_writeIndex + 1) &&& q.m_mask } := by
    rw [enqueue_eq_of_not_full q x hnf]
  have hf_cap : (q.enqueue x).2.m_capacity = q.m_capacity := by rw [hq']
  have hf_mask : (q.enqueue x).2.m_mask = q.m_mask := by rw [hq']
  have hf_buf : (q.enqueue x).2.m_buffer = q.m_buffer.set q.m_writeIndex x := by rw [hq']
  have hf_w : (q.enqueue x).2.m_writeIndex = (q.m_writeIndex + 1) &&& q.m_mask := by rw [hq']
  have hf_r : (q.enqueue x).2.m_readIndex = q.m_readIndex := by rw [hq']
  have hsize : (q.enqueue x).2.size = q.size + 1 := by
    rw [hIq'.size_eq, hf_cap, hf_r, hf_w, hI.land_mask,
      mod_double_lt q.m_capacity (q.m_writeIndex + 1) hc (by omega)]
    split_ifs with h3
    · rw [mod_double_lt _ _ hc (by omega)]
      split_ifs with h4 <;> rcases hI.size_cases with ⟨h1, h2⟩ | ⟨h1, h2⟩ <;> omega
    · rw [mod_double_lt _ _ hc (by omega)]
      split_ifs with h4 <;> rcases hI.size_cases with ⟨h1, h2⟩ | ⟨h1, h2⟩ <;> omega
  refine ⟨by rw [enqueue_eq_of_not_full q x hnf], hIq', hf_cap, hsize, ?_⟩
  apply List.ext_getElem
  · rw [contents_length, hsize, List.length_append, contents_length]
    simp
  · intro i h1 h2
    rw [contents_length, hsize] at h1
    have hwid : (q.m_readIndex + q.size) % q.m_capacity = q.m_writeIndex :=
      hI.write_read_size
    by_cases hcase : i < q.size
    · rw [List.getElem_append_left (by rw [contents_length]; exact hcase),
        contents_getElem (q.enqueue x).2 i (by rw [contents_length, hsize]; omega),
        contents_getElem q i (by rw [contents_length]; omega),
        hf_buf, hf_r, hf_mask, hI.land_mask]
      have hidx : (q.m_readIndex + i) % q.m_capacity < q.m_buffer.length := by
        rw [hI.len_eq]
        exact Nat.mod_lt _ hc
      have hidx' : (q.m_readIndex + i) % q.m_capacity <
          (q.m_buffer.set q.m_writeIndex x).length := by
        simpa [List.length_set] using hidx
      rw [List.getD_eq_getElem _ _ hidx', List.getD_eq_getElem _ _ hidx]
      apply List.getElem_set_ne
      intro heq
      have : i = q.size := by
        apply hI.pos_inj (by omega) hI.size_lt
        rw [hwid, ← heq]
      omega
    · have hieq : i = q.size := by omega
      subst hieq
      rw [contents_getElem (q.enqueue x).2 q.size (by rw [contents_length, hsize]; omega),
        hf_buf, hf_r, hf_mask, hI.land_mask, hwid]
      have hwlen : q.m_writeIndex < (q.m_buffer.set q.m_writeIndex x).length := by
        rw [List.length_set, hI.len_eq]
        exact hw
      rw [List.getD_eq_getElem _ _ hwlen, List.getElem_set_self hwlen]
      rw [List.getElem_concat_length q.contents x q.size (by rw [contents_length])]

/-- A successful `dequeue` (possible whenever the queue is non-empty)
returns true, delivers the head of the abstract FIFO content, and leaves
the tail pending. -/
theorem Inv.dequeue_spec [Inhabited T] (hI : q.Inv) (out : T) (hsz : 0 < q.size) :
    (q.dequeue out).1 = true ∧ (q.dequeue out).2.2.Inv ∧
    (q.dequeue out).2.2.m_capacity = q.m_capacity ∧
    (q.dequeue out).2.2.size = q.size - 1 ∧
    q.contents = (q.dequeue out).2.1 :: (q.dequeue out).2.2.contents := by
  have hc := hI.cap_pos
  have hw := hI.write_lt
  have hr := hI.read_lt
  have hne : q.m_readIndex ≠ q.m_writeIndex := by
    intro h
    have := hI.size_zero_iff.2 h
    omega
  have hIq' : (q.dequeue out).2.2.Inv := hI.dequeue_inv out
  have hq' : (q.dequeue out).2.2 =
      { q with m_readIndex := (q.m_readIndex + 1) &&& q.m_mask } := by
    rw [dequeue_eq_of_nonempty q out hne]
  have hval : (q.dequeue out).2.1 = q.m_buffer.getD q.m_readIndex out := by
    rw [dequeue_eq_of_nonempty q out hne]
  have hf_cap : (q.dequeue out).2.2.m_capacity = q.m_capacity := by rw [hq']
  have hf_mask : (q.dequeue out).2.2.m_mask = q.m_mask := by rw [hq']
  have hf_buf : (q.dequeue out).2.2.m_buffer = q.m_buffer := by rw [hq']
  have hf_w : (q.dequeue out).2.2.m_writeIndex = q.m_writeIndex := by rw [hq']
  have hf_r : (q.dequeue out).2.2.m_readIndex = (q.m_readIndex + 1) &&& q.m_mask := by
    rw [hq']
  have hsize : (q.dequeue out).2.2.size = q.size - 1 := by
    rw [hIq'.size_eq, hf_cap, hf_w, hf_r, hI.land_mask,
      mod_double_lt q.m_capacity (q.m_readIndex + 1) hc (by omega)]
    split_ifs with h3
    · rw [mod_double_lt _ _ hc (by omega)]
      split_ifs with h4 <;> rcases hI.size_cases with ⟨h1, h2⟩ | ⟨h1, h2⟩ <;> omega
    · rw [mod_double_lt _ _ hc (by omega)]
      split_ifs with h4 <;> rcases hI.size_cases with ⟨h1, h2⟩ | ⟨h1, h2⟩ <;> omega
  refine ⟨by rw [dequeue_eq_of_nonempty q out hne], hIq', hf_cap, hsize, ?_⟩
  apply List.ext_getElem
  · rw [contents_length, List.length_cons, contents_length, hsize]
    omega
  · intro i h1 h2
    rw [contents_length] at h1
    cases i with
    | zero =>
      rw [contents_getElem q 0 (by rw [contents_length]; omega), List.getElem_cons_zero, hval]
      have hrlen : q.m_readIndex < q.m_buffer.length := by rw [hI.len_eq]; exact hr
      have e0 : q.m_readIndex + 0 = q.m_readIndex := by omega
      rw [e0, hI.land_mask, Nat.mod_eq_of_lt hr,
        List.getD_eq_getElem _ _ hrlen, List.getD_eq_getElem _ _ hrlen]
    | succ j =>
      rw [contents_getElem q (j + 1) (by rw [contents_length]; omega), List.getElem_cons_succ,
        contents_getElem (q.dequeue out).2.2 j (by rw [contents_length, hsize]; omega),
        hf_buf, hf_r, hf_mask]
      simp only [hI.land_mask]
      rw [Nat.mod_add_mod]
      have e1 : q.m_readIndex + (j + 1) = q.m_readIndex + 1 + j := by omega
      rw [e1]

end CircularQueue

namespace CircularQueue

variable {T : Type}

/-- Enqueuing a batch that fits in the free space succeeds call by call
and appends the batch to the FIFO content. -/
theorem enqueueAll_spec [Inhabited T] :
    ∀ (vs : List T) (q : CircularQueue T), q.Inv →
      q.size + vs.length ≤ q.m_capacity - 1 →
      (enqueueAll q vs).1 = true ∧ (enqueueAll q vs).2.Inv ∧
      (enqueueAll q vs).2.m_capacity = q.m_capacity ∧
      (enqueueAll q vs).2.size = q.size + vs.length ∧
      (enqueueAll q vs).2.contents = q.contents ++ vs := by
  intro vs
  induction vs with
  | nil =>
    intro q hI _
    exact ⟨rfl, hI, rfl, by simp [enqueueAll], by simp [enqueueAll]⟩
  | cons v rest ih =>
    intro q hI hle
    have hsz : q.size < q.m_capacity - 1 := by
      simp only [List.length_cons] at hle
      omega
    obtain ⟨he1, hIq', hcap', hsz', hcont'⟩ := hI.enqueue_spec v hsz
    obtain ⟨ha1, hIa, hcapa, hsza, hconta⟩ := ih (q.enqueue v).2 hIq' (by
      rw [hsz', hcap']
      simp only [List.length_cons] at hle
      omega)
    refine ⟨?_, ?_, ?_, ?_, ?_⟩
    · show ((q.enqueue v).1 && (enqueueAll (q.enqueue v).2 rest).1) = true
      rw [he1, ha1]
      rfl
    · exact hIa
    · show (enqueueAll (q.enqueue v).2 rest).2.m_capacity = q.m_capacity
      rw [hcapa, hcap']
    · show (enqueueAll (q.enqueue v).2 rest).2.size = q.size + (v :: rest).length
      rw [hsza, hsz']
      simp only [List.length_cons]
      omega
    · show (enqueueAll (q.enqueue v).2 rest).2.contents = q.contents ++ (v :: rest)
      rw [hconta, hcont']
      simp

/-- Dequeuing exactly `size` times delivers the FIFO content in order,
every call succeeding, and drains the queue. -/
theorem dequeueN_spec [Inhabited T] :
    ∀ (n : Nat) (q : CircularQueue T), q.Inv → q.size = n →
      (dequeueN n q).1 = q.contents.map (fun v => (true, v)) ∧
      (dequeueN n q).2.Inv ∧ (dequeueN n q).2.size = 0 := by
  intro n
  induction n with
  | zero =>
    intro q hI hsz
    refine ⟨?_, hI, hsz⟩
    unfold contents
    rw [hsz]
    simp [dequeueN]
  | succ n ih =>
    intro q hI hsz
    obtain ⟨hd1, hIq', hcap', hsz', hcont'⟩ := hI.dequeue_spec default (by omega)
    obtain ⟨ha1, hIa, hsza⟩ := ih (q.dequeue default).2.2 hIq' (by omega)
    refine ⟨?_, hIa, hsza⟩
    show ((q.dequeue default).1, (q.dequeue default).2.1) ::
        (dequeueN n (q.dequeue default).2.2).1 = _
    rw [hd1, ha1, hcont']
    simp

/-- On an empty queue every `dequeue` fails and changes nothing, so any
number of subsequent calls returns only failures with untouched default
outputs. -/
theorem dequeueN_empty [Inhabited T] (q : CircularQueue T)
    (h : q.m_readIndex = q.m_writeIndex) :
    ∀ n, dequeueN n q = (List.replicate n (false, (default : T)), q) := by
  intro n
  induction n with
  | zero => simp [dequeueN]
  | succ n ih =>
    show (((q.dequeue default).1, (q.dequeue default).2.1) ::
        (dequeueN n (q.dequeue default).2.2).1, (dequeueN n (q.dequeue default).2.2).2) = _
    rw [dequeue_eq_of_empty q default h]
    simp only []
    rw [ih]
    simp [List.replicate_succ]

end CircularQueue

namespace CircularQueue

variable {T : Type}

/-- Every state reachable from a constructed queue satisfies the
structural invariant. -/
theorem Reachable_Inv [Inhabited T] {q : CircularQueue T} (h : Reachable q) : q.Inv := by
  induction h with
  | construct cap h1 h2 => exact construct_Inv T cap h1 h2
  | enqueue q x _ ih => exact ih.enqueue_inv x
  | forceEnqueue q x _ ih => exact ih.forceEnqueue_inv x
  | dequeue q out _ ih => exact ih.dequeue_inv out
  | clear q _ ih => exact ih.clear_inv

end CircularQueue

open CircularQueue

/-- C1: starting from a freshly constructed (empty) buffer, enqueueing any
`N ≤ capacity - 1` values succeeds on every call, and `N` subsequent
dequeues all succeed and deliver exactly those values in FIFO order,
leaving the buffer empty; the single enqueue-then-dequeue round trip is
the instance `vs = [v]`. -/
theorem c1_fifo_roundtrip (T : Type) [Inhabited T] (cap : Nat) (h1 : 1 ≤ cap)
    (h2 : cap ≤ 2 ^ 63) (vs : List T)
    (hN : vs.length ≤ (construct T cap).m_capacity - 1) :
    (enqueueAll (construct T cap) vs).1 = true ∧
    (dequeueN vs.length (enqueueAll (construct T cap) vs).2).1 =
      vs.map (fun v => (true, v)) ∧
    (dequeueN vs.length (enqueueAll (construct T cap) vs).2).2.isEmpty = true := by
  have hI := construct_Inv T cap h1 h2
  obtain ⟨_, _, _, _, _, _, _, hw0, hr0⟩ := construct_spec T cap h1 h2
  have hrw : (construct T cap).m_readIndex = (construct T cap).m_writeIndex := by
    rw [hw0, hr0]
  have hsz0 : (construct T cap).size = 0 := size_eq_zero_of_read_eq_write _ hrw
  have hcont0 : (construct T cap).contents = [] := contents_nil_of_read_eq_write _ hrw
  obtain ⟨he, hIe, hcape, hsze, hconte⟩ := enqueueAll_spec vs _ hI (by rw [hsz0]; omega)
  obtain ⟨hd, hId, hszd⟩ := dequeueN_spec vs.length _ hIe (by rw [hsze, hsz0]; omega)
  refine ⟨he, ?_, ?_⟩
  · rw [hd, hconte, hcont0]
    simp
  · have := hId.size_zero_iff.1 hszd
    simp [isEmpty, this]

/-- Witness for C1 at capacity 8 with the three values 10, 20, 30. -/
theorem c1_witness :
    (enqueueAll (construct Nat 8) [10, 20, 30]).1 = true ∧
    (dequeueN 3 (enqueueAll (construct Nat 8) [10, 20, 30]).2).1 =
      [10, 20, 30].map (fun v => (true, v)) ∧
    (dequeueN 3 (enqueueAll (construct Nat 8) [10, 20, 30]).2).2.isEmpty = true :=
  c1_fifo_roundtrip Nat 8 (by norm_num) (by norm_num) [10, 20, 30] (by decide)

/-- C2: on a buffer of effective capacity 8, seven enqueues succeed, the
8th enqueue fails with `isFull()` true and `size() == 7`, a 9th plain
enqueue also fails, and after a `forceEnqueue` the oldest of the seven
values (1) is never returned again: the seven remaining successful
dequeues deliver `[2,3,4,5,6,7,99]`, and every dequeue after that fails
on the unchanged empty state. -/
theorem c2_fill_fail_force :
    (enqueueAll (construct Nat 8) [1, 2, 3, 4, 5, 6, 7]).1 = true ∧
    ((enqueueAll (construct Nat 8) [1, 2, 3, 4, 5, 6, 7]).2.enqueue 8).1 = false ∧
    (enqueueAll (construct Nat 8) [1, 2, 3, 4, 5, 6, 7]).2.isFull = true ∧
    (enqueueAll (construct Nat 8) [1, 2, 3, 4, 5, 6, 7]).2.size = 7 ∧
    ((((enqueueAll (construct Nat 8) [1, 2, 3, 4, 5, 6, 7]).2.enqueue 8).2.enqueue 9).1
      = false) ∧
    (dequeueN 7 ((((enqueueAll (construct Nat 8) [1, 2, 3, 4, 5, 6, 7]).2.enqueue
        8).2.enqueue 9).2.forceEnqueue 99)).1
      = [2, 3, 4, 5, 6, 7, 99].map (fun v => (true, v)) ∧
    (1 : Nat) ∉ ((dequeueN 7 ((((enqueueAll (construct Nat 8)
        [1, 2, 3, 4, 5, 6, 7]).2.enqueue 8).2.enqueue 9).2.forceEnqueue 99)).1.map
        Prod.snd) ∧
    ∀ n, dequeueN n (dequeueN 7 ((((enqueueAll (construct Nat 8)
        [1, 2, 3, 4, 5, 6, 7]).2.enqueue 8).2.enqueue 9).2.forceEnqueue 99)).2
      = (List.replicate n (false, 0), (dequeueN 7 ((((enqueueAll (construct Nat 8)
        [1, 2, 3, 4, 5, 6, 7]).2.enqueue 8).2.enqueue 9).2.forceEnqueue 99)).2) := by
  refine ⟨by decide, by decide, by decide, by decide, by decide, by decide, by decide, ?_⟩
  exact dequeueN_empty _ (by decide)

/-- C3: whenever the buffer is full — advancing and masking the write
cursor yields the read cursor, which is what `isFull()` tests — `enqueue`
returns false and performs no mutation at all: the resulting state (write
cursor, read cursor and every storage slot) is the original one. -/
theorem c3_enqueue_full_atomic {T : Type} (q : CircularQueue T) (x : T)
    (h : q.isFull = true) : q.enqueue x = (false, q) := by
  apply enqueue_eq_of_full
  simpa [isFull] using h

/-- Witness for C3: a concrete full two-slot buffer rejects an enqueue
unchanged. -/
theorem c3_witness :
    (CircularQueue.mk 2 1 [5, 6] 1 0 : CircularQueue Nat).enqueue 42
      = (false, CircularQueue.mk 2 1 [5, 6] 1 0) :=
  c3_enqueue_full_atomic _ 42 (by decide)

/-- C4: `dequeue` on an empty buffer (read cursor equal to the write
cursor) returns false, leaves the output parameter untouched and the
state unchanged; on a non-empty buffer it returns true, copies the slot
at the current read position into the output, and advances the masked
read cursor by one. -/
theorem c4_dequeue_cases {T : Type} (q : CircularQueue T) (out : T) :
    q.dequeue out =
      if q.m_readIndex = q.m_writeIndex then
        (false, out, q)
      else
        (true, q.m_buffer.getD q.m_readIndex out,
          { q with m_readIndex := (q.m_readIndex + 1) &&& q.m_mask }) := by
  by_cases h : q.m_readIndex = q.m_writeIndex
  · rw [if_pos h, dequeue_eq_of_empty q out h]
  · rw [if_neg h, dequeue_eq_of_nonempty q out h]

/-- C5 counterexample: the claim demands that a request of 0 — not a
power of two — be rounded up to the least power of two at or above it,
which the doubling-from-1 loop would make 1; the constructor instead
accepts 0 through its `capacity & (capacity - 1) == 0` test (the
subtraction underflows) and keeps capacity 0. -/
theorem c5_counterexample :
    (construct Nat 0).m_capacity = 0 ∧ (construct Nat 0).m_capacity ≠ 1 := by
  refine ⟨by decide, by decide⟩

/-- C5 (amended to nonzero requests `cap ≤ 2 ^ 63`, the `size_t` range on
which the doubling loop is overflow-free): a power-of-two request is used
unchanged; any other request yields the least power of two at or above
it; the mask is `capacity - 1` and the store holds `capacity` slots.  In
particular requesting 5 yields capacity 8 and requesting 8 yields 8. -/
theorem c5_capacity_normalization (cap : Nat) (h1 : 1 ≤ cap) (h2 : cap ≤ 2 ^ 63) :
    ((∃ k, cap = 2 ^ k) → (construct Nat cap).m_capacity = cap) ∧
    (¬(∃ k, cap = 2 ^ k) →
      (∃ k, (construct Nat cap).m_capacity = 2 ^ k) ∧
      cap ≤ (construct Nat cap).m_capacity ∧
      (∀ m, (∃ j, m = 2 ^ j) → cap ≤ m → (construct Nat cap).m_capacity ≤ m)) ∧
    (construct Nat cap).m_mask = (construct Nat cap).m_capacity - 1 ∧
    (construct Nat cap).m_buffer.length = (construct Nat cap).m_capacity ∧
    (construct Nat 5).m_capacity = 8 ∧
    (construct Nat 8).m_capacity = 8 := by
  obtain ⟨has, hnot, hp2, hge, hle, hmask, hlen, _, _⟩ := construct_spec Nat cap h1 h2
  refine ⟨has, ?_, hmask, hlen, by decide, by decide⟩
  intro hnpow
  obtain ⟨hge2, hp22, hmin⟩ := nextPow2_spec cap
  rw [hnot hnpow]
  exact ⟨hp22, hge2, fun m hm hcm => hmin m hm hcm⟩

/-- Witness for C5 at the non-power-of-two request 5. -/
theorem c5_witness :
    ((∃ k, 5 = 2 ^ k) → (construct Nat 5).m_capacity = 5) ∧
    (¬(∃ k, 5 = 2 ^ k) →
      (∃ k, (construct Nat 5).m_capacity = 2 ^ k) ∧
      5 ≤ (construct Nat 5).m_capacity ∧
      (∀ m, (∃ j, m = 2 ^ j) → 5 ≤ m → (construct Nat 5).m_capacity ≤ m)) ∧
    (construct Nat 5).m_mask = (construct Nat 5).m_capacity - 1 ∧
    (construct Nat 5).m_buffer.length = (construct Nat 5).m_capacity ∧
    (construct Nat 5).m_capacity = 8 ∧
    (construct Nat 8).m_capacity = 8 :=
  c5_capacity_normalization 5 (by norm_num) (by norm_num)

/-- C6 counterexample: after constructing with requested capacity 0 the
capacity is 0, which is not a power of two (every power of two is
positive), so the claimed guarantee fails for the request 0. -/
theorem c6_counterexample :
    (construct Nat 0).m_capacity = 0 ∧ ∀ k, (construct Nat 0).m_capacity ≠ 2 ^ k := by
  refine ⟨by decide, ?_⟩
  intro k hk
  have h0 : (construct Nat 0).m_capacity = 0 := by decide
  rw [h0] at hk
  have : 0 < 2 ^ k := pow_pos (by norm_num) k
  omega

/-- C6 (amended to requests in `[1, 2 ^ 63]`): after construction the
capacity is a power of two, at least 1, and the mask is `capacity - 1`,
so index wrap via bitwise AND is valid. -/
theorem c6_capacity_pow2 (cap : Nat) (h1 : 1 ≤ cap) (h2 : cap ≤ 2 ^ 63) :
    (∃ k, (construct Nat cap).m_capacity = 2 ^ k) ∧
    1 ≤ (construct Nat cap).m_capacity ∧
    (construct Nat cap).m_mask = (construct Nat cap).m_capacity - 1 := by
  obtain ⟨_, _, hp2, hge, _, hmask, _, _, _⟩ := construct_spec Nat cap h1 h2
  exact ⟨hp2, by omega, hmask⟩

/-- Witness for C6 at the default request 4096. -/
theorem c6_witness :
    (∃ k, (construct Nat 4096).m_capacity = 2 ^ k) ∧
    1 ≤ (construct Nat 4096).m_capacity ∧
    (construct Nat 4096).m_mask = (construct Nat 4096).m_capacity - 1 :=
  c6_capacity_pow2 4096 (by norm_num) (by norm_num)

/-- C7: `clear()` sets the read cursor to the current write cursor and
changes nothing else; afterwards `size()` is 0, `isEmpty()` is true (as
it is immediately after construction, for any request) and any `dequeue`
fails leaving its output and the state unchanged — whatever the fill
level was before. -/
theorem c7_clear_spec {T : Type} [Inhabited T] (q : CircularQueue T) :
    q.clear = { q with m_readIndex := q.m_writeIndex } ∧
    q.clear.size = 0 ∧
    q.clear.isEmpty = true ∧
    (∀ out, q.clear.dequeue out = (false, out, q.clear)) ∧
    (∀ cap, (construct T cap).isEmpty = true) := by
  refine ⟨rfl, ?_, ?_, ?_, ?_⟩
  · exact size_eq_zero_of_read_eq_write _ rfl
  · simp [isEmpty, clear]
  · intro out
    exact dequeue_eq_of_empty _ out rfl
  · intro cap
    unfold construct
    split <;> simp [isEmpty]

/-- C8: on every reachable state (capacity bounded by `2 ^ 53`, the range
on which the `double` arithmetic of `getUsageRatio` is exact and the
rational model is faithful) the usage ratio equals `size() / capacity()`
exactly, is at least 0, and is strictly below 1. -/
theorem c8_usage_ratio {T : Type} [Inhabited T] (q : CircularQueue T)
    (h : Reachable q) (_hcap : q.m_capacity ≤ 2 ^ 53) :
    q.getUsageRatioVal = (q.size : ℚ) / (q.capacity : ℚ) ∧
    0 ≤ q.getUsageRatioVal ∧ q.getUsageRatioVal < 1 := by
  have hI := Reachable_Inv h
  have hlt : q.size < q.m_capacity := hI.size_lt
  have hpos : (0 : ℚ) < (q.m_capacity : ℚ) := by
    exact_mod_cast hI.cap_pos
  refine ⟨rfl, ?_, ?_⟩
  · exact div_nonneg (by positivity) (by positivity)
  · rw [getUsageRatioVal, div_lt_one hpos]
    exact_mod_cast hlt

/-- Witness for C8 on a freshly constructed capacity-8 buffer. -/
theorem c8_witness :
    (construct Nat 8).getUsageRatioVal =
      ((construct Nat 8).size : ℚ) / ((construct Nat 8).capacity : ℚ) ∧
    0 ≤ (construct Nat 8).getUsageRatioVal ∧
    (construct Nat 8).getUsageRatioVal < 1 :=
  c8_usage_ratio (construct Nat 8)
    (Reachable.construct 8 (by norm_num) (by norm_num)) (by decide)

/-- C9: every state reachable from a construction with requested capacity
at least 1 (and within the faithful `size_t` range) by any sequence of
`enqueue`, `forceEnqueue`, `dequeue` and `clear` calls has at most
`capacity - 1` pending elements, keeps both cursors inside
`[0, capacity)`, and satisfies `isFull()` exactly when
`size() == capacity - 1`. -/
theorem c9_reachable_invariants {T : Type} [Inhabited T] (q : CircularQueue T)
    (h : Reachable q) :
    q.size ≤ q.m_capacity - 1 ∧
    q.m_writeIndex < q.m_capacity ∧
    q.m_readIndex < q.m_capacity ∧
    (q.isFull = true ↔ q.size = q.m_capacity - 1) := by
  have hI := Reachable_Inv h
  have hlt : q.size < q.m_capacity := hI.size_lt
  refine ⟨by omega, hI.write_lt, hI.read_lt, ?_⟩
  rw [← hI.full_iff]
  simp [isFull]

/-- Witness for C9 after a concrete call sequence: enqueue, forceEnqueue,
dequeue and clear on a capacity-4 buffer. -/
theorem c9_witness :
    ((((construct Nat 4).enqueue 1).2.forceEnqueue 2).dequeue 0).2.2.clear.size
        ≤ ((((construct Nat 4).enqueue 1).2.forceEnqueue 2).dequeue
          0).2.2.clear.m_capacity - 1 ∧
    ((((construct Nat 4).enqueue 1).2.forceEnqueue 2).dequeue 0).2.2.clear.m_writeIndex
      < ((((construct Nat 4).enqueue 1).2.forceEnqueue 2).dequeue
          0).2.2.clear.m_capacity ∧
    ((((construct Nat 4).enqueue 1).2.forceEnqueue 2).dequeue 0).2.2.clear.m_readIndex
      < ((((construct Nat 4).enqueue 1).2.forceEnqueue 2).dequeue
          0).2.2.clear.m_capacity ∧
    (((((construct Nat 4).enqueue 1).2.forceEnqueue 2).dequeue 0).2.2.clear.isFull = true
      ↔ ((((construct Nat 4).enqueue 1).2.forceEnqueue 2).dequeue 0).2.2.clear.size
        = ((((construct Nat 4).enqueue 1).2.forceEnqueue 2).dequeue
          0).2.2.clear.m_capacity - 1) :=
  c9_reachable_invariants _
    (Reachable.clear _ (Reachable.dequeue _ 0 (Reachable.forceEnqueue _ 2
      (Reachable.enqueue _ 1 (Reachable.construct 4 (by norm_num) (by norm_num))))))

/-- C10: a requested capacity of 0 passes the `capacity & (capacity - 1) == 0`
test (the subtraction underflows to `2 ^ 64 - 1`), so the buffer keeps
capacity 0, mask `2 ^ 64 - 1` and a zero-length store; `enqueue` then
computes next write position 1, distinct from the read cursor 0, so the
full check passes and the store of the item targets slot 0 of the empty
store: the in-bounds access guard `writeIndex < length` is violated. -/
theorem c10_zero_capacity_out_of_bounds :
    (construct Nat 0).m_capacity = 0 ∧
    (construct Nat 0).m_mask = 2 ^ 64 - 1 ∧
    (construct Nat 0).m_buffer.length = 0 ∧
    (construct Nat 0).m_writeIndex = 0 ∧
    (construct Nat 0).m_readIndex = 0 ∧
    ((construct Nat 0).m_writeIndex + 1) &&& (construct Nat 0).m_mask = 1 ∧
    ((construct Nat 0).enqueue 7).1 = true ∧
    ¬ ((construct Nat 0).m_writeIndex < (construct Nat 0).m_buffer.length) := by
  decide
